import Mathlib

/-!
Verification development for the `mesologia` corpus-adjacency scanner
(`yhwh_between_search.py` and `yhwh_between_stats.py`).

Text is modelled as `List Nat` of Unicode code points.  The program
processes Hebrew-script corpus text, so the Unicode tables are embedded
for the Hebrew block (U+0591..U+05EA), which is the character universe
the two scripts operate on:

* `isMn` is `unicodedata.category(ch) == "Mn"` restricted to that block
  (accents U+0591..U+05AF, points U+05B0..U+05BD, rafe U+05BF, the
  shin/sin dots U+05C1/U+05C2, U+05C4/U+05C5, and qamats qatan U+05C7).
* Hebrew letters and punctuation have no canonical decompositions and
  every precomposed Hebrew character is composition-excluded, so on this
  block `unicodedata.normalize("NFD", s)` is exactly the canonical
  reordering of combining marks (`nfd` below) and
  `unicodedata.normalize("NFC", s)` is the identity (`nfc` below).
* `ccc` is the canonical combining class; every Hebrew mark in `isMn`
  has a positive class and every non-mark has class 0.  The exact
  positive values only influence the relative order of adjacent marks
  (which are all removed by the mark filter before any comparison), so
  where the Unicode table varies inside a run we use a representative
  value; nothing proved below depends on the particular positive values.
-/

/-- Canonical combining class (Hebrew block; 0 elsewhere). -/
def ccc (c : Nat) : Nat :=
  if 0x0591 ≤ c ∧ c ≤ 0x05AF then 220
  else if 0x05B0 ≤ c ∧ c ≤ 0x05B9 then c - 0x05B0 + 10
  else if c = 0x05BA then 19
  else if c = 0x05BB then 20
  else if c = 0x05BC then 21
  else if c = 0x05BD then 22
  else if c = 0x05BF then 23
  else if c = 0x05C1 then 24
  else if c = 0x05C2 then 25
  else if c = 0x05C4 then 230
  else if c = 0x05C5 then 220
  else if c = 0x05C7 then 18
  else 0

/-- `unicodedata.category(ch) == "Mn"` on the Hebrew block. -/
def isMn (c : Nat) : Bool :=
  (0x0591 ≤ c && c ≤ 0x05BD) || c == 0x05BF || c == 0x05C1 || c == 0x05C2 ||
    c == 0x05C4 || c == 0x05C5 || c == 0x05C7

/-- One step of the Unicode canonical-ordering algorithm: a character
sinks to the right past adjacent characters of strictly smaller positive
combining class (class-0 characters are barriers). -/
def reorderInsert (c : Nat) : List Nat → List Nat
  | [] => [c]
  | d :: ds =>
    if 0 < ccc c ∧ 0 < ccc d ∧ ccc d < ccc c then d :: reorderInsert c ds
    else c :: d :: ds

/-- Canonical reordering of combining marks (stable sort of maximal
positive-class runs by combining class). -/
def canonicalReorder : List Nat → List Nat
  | [] => []
  | c :: cs => reorderInsert c (canonicalReorder cs)

/-- `unicodedata.normalize("NFD", text)` on Hebrew-block text: no Hebrew
character has a canonical decomposition, so NFD is canonical reordering. -/
def nfd (s : List Nat) : List Nat := canonicalReorder s

/-- `unicodedata.normalize("NFC", text)` on Hebrew-block text with no
remaining combining marks: every precomposed Hebrew character is
composition-excluded, so NFC is the identity. -/
def nfc (s : List Nat) : List Nat := s

/-- `FINAL_FORM_TRANSLATION` (`str.maketrans` table from both scripts):
the five Hebrew final-letter forms map to their base letters; every
other code point is unchanged. -/
def finalFold (c : Nat) : Nat :=
  if c = 0x05DA then 0x05DB
  else if c = 0x05DD then 0x05DE
  else if c = 0x05DF then 0x05E0
  else if c = 0x05E3 then 0x05E4
  else if c = 0x05E5 then 0x05E6
  else c

/-- `normalize_for_match` (identical in `yhwh_between_search.py` lines
48-54 and `yhwh_between_stats.py` lines 33-40): NFD-decompose, drop
every code point of category Mn, NFC-recompose, then fold the five
final-letter forms. -/
def normalize_for_match (text : List Nat) : List Nat :=
  if text = [] then []
  else
    let decomposed := nfd text
    let stripped := decomposed.filter (fun ch => !(isMn ch))
    let normalized := nfc stripped
    normalized.map finalFold

/-- `strip_diacritics` (`yhwh_between_stats.py` lines 43-46): remove the
maqaf U+05BE (`text.replace("\x7f05be", "")`, modelled as a filter since
the replacement is empty), then `normalize_for_match`. -/
def strip_diacritics (text : List Nat) : List Nat :=
  normalize_for_match (text.filter (fun ch => ch != 0x05BE))

/-- A corpus word as produced by `load_words` (`yhwh_between_stats.py`
lines 49-52, 86-90): `text` is the `strip_diacritics`-normalized
`g_word_utf8` text and `book` the containing book name. -/
structure WordInfo where
  text : List Nat
  book : String

/-- `_suffix_flags` (`yhwh_between_stats.py` lines 94-97): all-`True`
for an empty target, otherwise an `endswith` test per word. -/
def sfx_flags (words : List WordInfo) (suffix_target : List Nat) : List Bool :=
  if suffix_target = [] then List.replicate words.length true
  else words.map (fun word => suffix_target.isSuffixOf word.text)

/-- The inner `while` loop of `_prefix_flags` (`yhwh_between_stats.py`
lines 111-127), returning the final `(remaining, matched)` state for one
start position. -/
def pfxLoop (words : List WordInfo) (idx : Nat) (remaining : List Nat)
    (matched : Bool) : List Nat × Bool :=
  if idx < words.length ∧ remaining ≠ [] then
    let segment := (words.getD idx ⟨[], ""⟩).text
    if segment = [] then (remaining, matched)
    else if remaining.isPrefixOf segment then ([], true)
    else if segment.isPrefixOf remaining then
      pfxLoop words (idx + 1) (remaining.drop segment.length) true
    else (remaining, matched)
  else (remaining, matched)
termination_by remaining.length
decreasing_by
  rename_i ha hb hc hd
  have h1 : 0 < remaining.length := List.length_pos.mpr ha.2
  have h2 : 0 < (words.getD idx ⟨[], ""⟩).text.length := List.length_pos.mpr hb
  rw [List.length_drop]
  omega

/-- The flag `_prefix_flags` records for one start position: the loop
left `remaining` empty with `matched` set (lines 129-130). -/
def pfxMatchAt (words : List WordInfo) (prefix_target : List Nat) (start : Nat) : Bool :=
  let r := pfxLoop words start prefix_target false
  decide (r.1 = []) && r.2

/-- `_prefix_flags` (`yhwh_between_stats.py` lines 100-132): the flag
vector stays all-`False` for an empty target; otherwise each start
position runs the greedy consumption loop. -/
def pfx_flags (words : List WordInfo) (prefix_target : List Nat) : List Bool :=
  if prefix_target = [] then List.replicate words.length false
  else (List.range words.length).map (pfxMatchAt words prefix_target)

/-- `_poisson_tail` (`yhwh_between_stats.py` lines 135-150), with Python
floats modelled as exact reals.  The initial term is the Poisson mass at
`observed` computed in log space (`math.lgamma n = log (Gamma n)`); the
`while` loop repeatedly sets `term *= lam / k` and adds it to the tail,
stopping right after the first added term falls below `1e-12`; `sInf`
selects that stopping index (for `lam > 0` the terms tend to 0, so the
set is nonempty), and the result is capped at `1.0`. -/
noncomputable def poisson_tail (observed : Int) (lam : ℝ) : ℝ :=
  if lam ≤ 0 then (if 0 < observed then 0 else 1)
  else if observed ≤ 0 then 1
  else
    let term : ℕ → ℝ := fun j =>
      Real.exp ((observed : ℝ) * Real.log lam - lam -
          Real.log (Real.Gamma ((observed : ℝ) + 1))) *
        ∏ i ∈ Finset.range j, (lam / ((observed : ℝ) + 1 + (i : ℝ)))
    min 1 (∑ j ∈ Finset.range (sInf {j : ℕ | 1 ≤ j ∧ term j < 1e-12} + 1), term j)

/-- `PatternStats` (`yhwh_between_stats.py` lines 55-66).  `ratio` uses
`none` for the `math.inf` sentinel; the other float fields are exact
rationals except the Poisson tail, which is a real. -/
structure PatternStats where
  scope : String
  total_words : Nat
  suffix_count : Nat
  prefix_count : Nat
  expected_adjacent : ℚ
  observed_adjacent : Nat
  suffix_percent : ℚ
  prefix_percent : ℚ
  ratio : Option ℚ
  p_value : ℝ

/-- `compute_pattern_stats` (`yhwh_between_stats.py` lines 153-194). -/
noncomputable def compute_pattern_stats (scope : String) (words : List WordInfo)
    (suffix_target prefix_target : List Nat) : PatternStats :=
  let total_words := words.length
  if total_words = 0 then
    { scope := scope, total_words := 0, suffix_count := 0, prefix_count := 0,
      expected_adjacent := 0, observed_adjacent := 0, suffix_percent := 0,
      prefix_percent := 0, ratio := none, p_value := 1 }
  else
    let suffix_flags := sfx_flags words suffix_target
    let prefix_flags := pfx_flags words prefix_target
    let suffix_count := suffix_flags.count true
    let prefix_count := prefix_flags.count true
    let probability_suffix : ℚ := (suffix_count : ℚ) / (total_words : ℚ)
    let probability_prefix : ℚ := (prefix_count : ℚ) / (total_words : ℚ)
    let expected_adjacent : ℚ :=
      ((total_words : ℚ) - 1) * probability_suffix * probability_prefix
    let observed_adjacent : Nat :=
      ((List.range (total_words - 1)).filter
        (fun idx => suffix_flags.getD idx false && prefix_flags.getD (idx + 1) false)).length
    let ratio : Option ℚ :=
      if expected_adjacent ≠ 0 then some ((observed_adjacent : ℚ) / expected_adjacent)
      else none
    { scope := scope, total_words := total_words, suffix_count := suffix_count,
      prefix_count := prefix_count, expected_adjacent := expected_adjacent,
      observed_adjacent := observed_adjacent,
      suffix_percent := probability_suffix * 100,
      prefix_percent := probability_prefix * 100,
      ratio := ratio,
      p_value := poisson_tail (observed_adjacent : Int) ((expected_adjacent : ℚ) : ℝ) }

/-- `resolve_targets` (`yhwh_between_stats.py` lines 216-256).  A Python
`ValueError` is modelled as `Except.error` carrying the message; `None`
arguments as `none`; Python string truthiness as an emptiness test. -/
def resolve_targets (word : Option (List Nat)) (suffix_target : Option (List Nat))
    (prefix_target : Option (List Nat)) (split_index : Option Int) :
    Except String (List Nat × List Nat) :=
  let normalized_word := normalize_for_match (word.getD [])
  let sfx := match suffix_target with
    | some s => if s ≠ [] then normalize_for_match s else []
    | none => []
  let pfx := match prefix_target with
    | some p => if p ≠ [] then normalize_for_match p else []
    | none => []
  if sfx ≠ [] ∧ pfx ≠ [] then Except.ok (sfx, pfx)
  else if normalized_word = [] then
    Except.error "Provide --word unless both explicit targets are supplied."
  else if normalized_word.length < 2 then
    Except.error "The normalized target word must contain at least two letters."
  else
    let length := normalized_word.length
    let finish : Nat → Except String (List Nat × List Nat) := fun split_idx =>
      let resolved_sfx := if sfx ≠ [] then sfx else normalized_word.take split_idx
      let resolved_pfx := if pfx ≠ [] then pfx else normalized_word.drop split_idx
      if resolved_sfx = [] ∨ resolved_pfx = [] then
        Except.error "Both suffix and prefix must be non-empty after normalization."
      else Except.ok (resolved_sfx, resolved_pfx)
    match split_index with
    | none => finish (max 1 (min (length - 1) (if length / 2 = 0 then 1 else length / 2)))
    | some si =>
      if 0 < si ∧ si < (length : Int) then finish si.toNat
      else Except.error "The split index must fall between 1 and len-1 for the word."

/-- The `while` loop of `second_span_nodes` (`yhwh_between_search.py`
lines 201-225) over the corpus's raw consonantal texts (`g_cons_utf8`,
empty for a missing value), with `nodes` the indices consumed so far;
word nodes are modelled by their corpus index. -/
def second_span_loop (texts : List (List Nat)) (idx : Nat) (remaining : List Nat)
    (nodes : List Nat) : Option (List Nat) :=
  if idx < texts.length ∧ remaining ≠ [] then
    let norm := normalize_for_match (texts.getD idx [])
    if norm = [] then none
    else if remaining.isPrefixOf norm then some (nodes ++ [idx])
    else if norm.isPrefixOf remaining then
      second_span_loop texts (idx + 1) (remaining.drop norm.length) (nodes ++ [idx])
    else none
  else if remaining = [] then some nodes else none
termination_by remaining.length
decreasing_by
  rename_i ha hb hc hd
  have h1 : 0 < remaining.length := List.length_pos.mpr ha.2
  have h2 : 0 < (normalize_for_match (texts.getD idx [])).length := List.length_pos.mpr hb
  rw [List.length_drop]
  omega

/-- `second_span_nodes` (`yhwh_between_search.py` lines 197-225). -/
def second_span_nodes (texts : List (List Nat)) (start_index : Nat)
    (pfx : List Nat) : Option (List Nat) :=
  if pfx = [] then none
  else second_span_loop texts start_index pfx []

/-- An `InterWordMatch` reduced to the data the scanner derives from the
matcher: the node indices of the single-node first span and of the
second span (the `WordSpan` text/reference fields and the context window
are presentation strings built from those same nodes). -/
structure InterWordMatch where
  first : List Nat
  second : List Nat

/-- `collect_matches` (`yhwh_between_search.py` lines 227-251) over the
corpus's raw consonantal texts, parametrized by the two normalized
targets (the source computes them once from the global split word). -/
def collect_matches (texts : List (List Nat)) (suffix_target prefix_target : List Nat) :
    List InterWordMatch :=
  (List.range (texts.length - 1)).filterMap fun idx =>
    if suffix_target ≠ [] ∧
        ¬ suffix_target.isSuffixOf (normalize_for_match (texts.getD idx [])) then none
    else
      match second_span_nodes texts (idx + 1) prefix_target with
      | none => none
      | some span_nodes =>
        if span_nodes = [] then none
        else some { first := [idx], second := span_nodes }

/-- The contiguous index run `[idx, idx+1, ..., idx+k-1]`. -/
def spanRange (idx : Nat) : Nat → List Nat
  | 0 => []
  | k + 1 => idx :: spanRange (idx + 1) k

/-- Concatenation, in order, of the normalized texts of the tokens at
the given corpus indices. -/
def spanConcat (texts : List (List Nat)) (idxs : List Nat) : List Nat :=
  (idxs.map fun i => normalize_for_match (texts.getD i [])).foldr (· ++ ·) []

/-- Concatenation, in order, of the (already normalized) texts of the
statistics-engine words at the given indices. -/
def wordSpanConcat (words : List WordInfo) (idxs : List Nat) : List Nat :=
  (idxs.map fun i => (words.getD i ⟨[], ""⟩).text).foldr (· ++ ·) []

theorem isMn_iff (c : Nat) :
    isMn c = true ↔ (0x0591 ≤ c ∧ c ≤ 0x05BD) ∨ c = 0x05BF ∨ c = 0x05C1 ∨
      c = 0x05C2 ∨ c = 0x05C4 ∨ c = 0x05C5 ∨ c = 0x05C7 := by
  simp only [isMn, Bool.or_eq_true, Bool.and_eq_true, decide_eq_true_eq, beq_iff_eq]
  tauto

set_option maxHeartbeats 1000000 in
theorem ccc_pos_iff (c : Nat) : 0 < ccc c ↔ isMn c = true := by
  rw [isMn_iff]
  unfold ccc
  split_ifs <;> omega

theorem reorderInsert_of_ccc_zero (c : Nat) (l : List Nat) (h : ccc c = 0) :
    reorderInsert c l = c :: l := by
  cases l with
  | nil => rfl
  | cons d ds =>
    unfold reorderInsert
    rw [if_neg]
    omega

theorem filter_not_isMn_reorderInsert (c : Nat) (l : List Nat) :
    (reorderInsert c l).filter (fun ch => !(isMn ch)) =
      (c :: l).filter (fun ch => !(isMn ch)) := by
  induction l with
  | nil => rfl
  | cons d ds ih =>
    unfold reorderInsert
    split_ifs with h
    · have hc : isMn c = true := (ccc_pos_iff c).1 h.1
      have hd : isMn d = true := (ccc_pos_iff d).1 h.2.1
      simp [List.filter, hc, hd] at ih ⊢
      exact ih
    · rfl

theorem filter_not_isMn_canonicalReorder (l : List Nat) :
    (canonicalReorder l).filter (fun ch => !(isMn ch)) =
      l.filter (fun ch => !(isMn ch)) := by
  induction l with
  | nil => rfl
  | cons c cs ih =>
    show (reorderInsert c (canonicalReorder cs)).filter _ = _
    rw [filter_not_isMn_reorderInsert]
    simp only [List.filter]
    cases h : !(isMn c) <;> simp [ih]

theorem mem_reorderInsert {x c : Nat} {l : List Nat} :
    x ∈ reorderInsert c l ↔ x = c ∨ x ∈ l := by
  induction l with
  | nil => simp [reorderInsert]
  | cons d ds ih =>
    unfold reorderInsert
    split_ifs with h
    · simp [ih]
      tauto
    · simp

theorem mem_canonicalReorder {x : Nat} {l : List Nat} :
    x ∈ canonicalReorder l ↔ x ∈ l := by
  induction l with
  | nil => simp [canonicalReorder]
  | cons c cs ih =>
    show x ∈ reorderInsert c (canonicalReorder cs) ↔ _
    rw [mem_reorderInsert]
    simp [ih]

theorem finalFold_idem (c : Nat) : finalFold (finalFold c) = finalFold c := by
  unfold finalFold
  split_ifs <;> omega

theorem isMn_finalFold (c : Nat) : isMn (finalFold c) = isMn c := by
  unfold finalFold
  split_ifs with h1 h2 h3 h4 h5 <;> subst_vars <;> rfl

theorem finalFold_eq_maqaf {c : Nat} (h : finalFold c = 0x05BE) : c = 0x05BE := by
  unfold finalFold at h
  split_ifs at h <;> omega

theorem normalize_for_match_eq (text : List Nat) :
    normalize_for_match text =
      ((canonicalReorder text).filter (fun ch => !(isMn ch))).map finalFold := by
  unfold normalize_for_match nfd nfc
  split_ifs with h
  · subst h; rfl
  · rfl

theorem canonicalReorder_of_ccc_zero {l : List Nat} (h : ∀ x ∈ l, ccc x = 0) :
    canonicalReorder l = l := by
  induction l with
  | nil => rfl
  | cons c cs ih =>
    show reorderInsert c (canonicalReorder cs) = c :: cs
    rw [ih fun x hx => h x (List.mem_cons_of_mem _ hx),
      reorderInsert_of_ccc_zero c cs (h c (List.mem_cons_self _ _))]

theorem mem_normalize_exists {x : Nat} {s : List Nat} (h : x ∈ normalize_for_match s) :
    ∃ y ∈ s, isMn y = false ∧ finalFold y = x := by
  rw [normalize_for_match_eq] at h
  rcases List.mem_map.1 h with ⟨y, hy, rfl⟩
  rcases List.mem_filter.1 hy with ⟨hy1, hy2⟩
  exact ⟨y, mem_canonicalReorder.1 hy1, by simpa using hy2, rfl⟩

theorem mem_normalize_not_isMn {x : Nat} {s : List Nat} (h : x ∈ normalize_for_match s) :
    isMn x = false := by
  rcases mem_normalize_exists h with ⟨y, _, hy, rfl⟩
  rw [isMn_finalFold]
  exact hy

/-- C9: normalization is idempotent — applying `normalize_for_match` to
its own output returns that output unchanged, for every string. -/
theorem normalize_for_match_idem (s : List Nat) :
    normalize_for_match (normalize_for_match s) = normalize_for_match s := by
  have hMn : ∀ x ∈ normalize_for_match s, isMn x = false :=
    fun x hx => mem_normalize_not_isMn hx
  rw [normalize_for_match_eq (normalize_for_match s)]
  rw [canonicalReorder_of_ccc_zero (fun x hx => by
    by_contra hne
    exact absurd ((ccc_pos_iff x).1 (Nat.pos_of_ne_zero hne)) (by simp [hMn x hx]))]
  rw [List.filter_eq_self.mpr (fun x hx => by simp [hMn x hx])]
  rw [normalize_for_match_eq s, List.map_map]
  apply List.map_congr_left
  intro a _
  simp [Function.comp, finalFold_idem a]

/-- C5 counterexample: the shared `normalize_for_match` normalizer keeps
the maqaf U+05BE — it is a dash, not a combining mark — so the search
pipeline, which normalizes with `normalize_for_match` alone, does not
strip it from its output. -/
theorem normalize_for_match_keeps_maqaf :
    (0x05BE : Nat) ∈ normalize_for_match [0x05BE] := by decide

/-- C5 amended: the statistics pipeline's token normalizer
`strip_diacritics` removes every occurrence of the maqaf U+05BE, in
addition to dropping combining marks and folding the five final-letter
forms; the bare `normalize_for_match` normalizer preserves the mark. -/
theorem strip_diacritics_no_maqaf (s : List Nat) :
    (0x05BE : Nat) ∉ strip_diacritics s := by
  intro h
  have h2 : (0x05BE : Nat) ∈ normalize_for_match (s.filter fun ch => ch != 0x05BE) := h
  rcases mem_normalize_exists h2 with ⟨y, hy, _, hfold⟩
  have hyeq : y = 0x05BE := finalFold_eq_maqaf hfold
  subst hyeq
  have h3 := (List.mem_filter.1 hy).2
  simp at h3

/-- C1 counterexample: with an empty prefix target the matcher returns
no span (rather than a trivial zero-token span) and the statistics
engine's prefix-flag vector is constant false (rather than constant
true). -/
theorem empty_prefix_target_counterexample :
    second_span_nodes [[0x05D0]] 0 [] = none ∧
    pfx_flags [⟨[0x05D0], "Genesis"⟩] [] ≠ [true] ∧
    pfx_flags [⟨[0x05D0], "Genesis"⟩] [] = [false] := by
  refine ⟨rfl, ?_, rfl⟩
  decide

/-- C1 amended: for every token sequence and start position, an empty
prefix target makes the Prefix-Span Matcher fail (return no span), and
in the statistics engine an empty `prefixTarget` yields the constant
all-false flag vector. -/
theorem empty_prefix_target_behavior (texts : List (List Nat)) (start : Nat)
    (words : List WordInfo) :
    second_span_nodes texts start [] = none ∧
    pfx_flags words [] = List.replicate words.length false := ⟨rfl, rfl⟩

/-- C7: `compute_pattern_stats` on an empty token scope raises no error
and returns the degenerate record — zero counts, expected 0.0, observed
0, the infinity-sentinel ratio, and p-value 1.0 — for every pair of
targets. -/
theorem compute_pattern_stats_empty (scope : String) (suffix_target prefix_target : List Nat) :
    compute_pattern_stats scope [] suffix_target prefix_target =
      { scope := scope, total_words := 0, suffix_count := 0, prefix_count := 0,
        expected_adjacent := 0, observed_adjacent := 0, suffix_percent := 0,
        prefix_percent := 0, ratio := none, p_value := 1 } := rfl

theorem spanRange_length (idx k : Nat) : (spanRange idx k).length = k := by
  induction k generalizing idx with
  | zero => rfl
  | succ k ih => simp [spanRange, ih]

theorem mem_spanRange {i idx k : Nat} :
    i ∈ spanRange idx k ↔ idx ≤ i ∧ i < idx + k := by
  induction k generalizing idx with
  | zero => simp [spanRange]
  | succ k ih =>
    simp [spanRange, ih]
    omega

theorem spanRange_take : ∀ (j k idx : Nat), j ≤ k →
    (spanRange idx k).take j = spanRange idx j
  | 0, _, _, _ => by simp [spanRange]
  | j + 1, k + 1, idx, h => by
    simp [spanRange, spanRange_take j k (idx + 1) (Nat.le_of_succ_le_succ h)]
  | j + 1, 0, _, h => by omega

theorem spanConcat_nil (texts : List (List Nat)) : spanConcat texts [] = [] := rfl

theorem spanConcat_cons (texts : List (List Nat)) (i : Nat) (is : List Nat) :
    spanConcat texts (i :: is) =
      normalize_for_match (texts.getD i []) ++ spanConcat texts is := rfl

theorem second_span_loop_sound (texts : List (List Nat)) :
    ∀ (n : Nat) (remaining : List Nat), remaining.length ≤ n →
      ∀ (idx : Nat) (nodes res : List Nat), remaining ≠ [] →
      second_span_loop texts idx remaining nodes = some res →
      ∃ k, 0 < k ∧ idx + k ≤ texts.length ∧ res = nodes ++ spanRange idx k ∧
        (∀ i ∈ spanRange idx k, normalize_for_match (texts.getD i []) ≠ []) ∧
        remaining <+: spanConcat texts (spanRange idx k) ∧
        ∀ j < k, ¬ remaining <+: spanConcat texts (spanRange idx j) := by
  intro n
  induction n with
  | zero =>
    intro remaining hlen idx nodes res hne h
    cases remaining with
    | nil => exact absurd rfl hne
    | cons a as => simp at hlen
  | succ n ih =>
    intro remaining hlen idx nodes res hne h
    rw [second_span_loop] at h
    by_cases h1 : idx < texts.length ∧ remaining ≠ []
    · rw [if_pos h1] at h
      simp only at h
      by_cases h2 : normalize_for_match (texts.getD idx []) = []
      · rw [if_pos h2] at h
        exact absurd h (by simp)
      · rw [if_neg h2] at h
        by_cases h3 : remaining.isPrefixOf (normalize_for_match (texts.getD idx []))
        · rw [if_pos h3] at h
          have hres : res = nodes ++ [idx] := by
            cases h
            rfl
          refine ⟨1, one_pos, by omega, ?_, ?_, ?_, ?_⟩
          · simpa [spanRange] using hres
          · intro i hi
            have : i = idx := by
              rcases mem_spanRange.1 hi with ⟨hl, hr⟩
              omega
            subst this
            exact h2
          · show remaining <+: spanConcat texts (spanRange idx 1)
            rw [show spanRange idx 1 = [idx] from rfl, spanConcat_cons, spanConcat_nil,
              List.append_nil]
            exact List.isPrefixOf_iff_prefix.1 h3
          · intro j hj
            have : j = 0 := by omega
            subst this
            rw [show spanRange idx 0 = [] from rfl, spanConcat_nil]
            intro hpfx
            exact hne (List.prefix_nil.1 hpfx)
        · rw [if_neg h3] at h
          by_cases h4 : (normalize_for_match (texts.getD idx [])).isPrefixOf remaining
          · rw [if_pos h4] at h
            obtain ⟨t, ht⟩ := List.isPrefixOf_iff_prefix.1 h4
            have hdrop : remaining.drop (normalize_for_match (texts.getD idx [])).length = t := by
              rw [← ht, List.drop_left]
            have htne : t ≠ [] := by
              intro hteq
              subst hteq
              rw [List.append_nil] at ht
              exact h3 (by rw [ht]; exact List.isPrefixOf_iff_prefix.2 (List.prefix_refl _))
            have hnormne : normalize_for_match (texts.getD idx []) ≠ [] := h2
            have hlent : t.length ≤ n := by
              have hl1 : remaining.length = (normalize_for_match (texts.getD idx [])).length + t.length := by
                rw [← ht, List.length_append]
              have hl2 : 0 < (normalize_for_match (texts.getD idx [])).length :=
                List.length_pos.mpr hnormne
              omega
            rw [hdrop] at h
            obtain ⟨k, hk, hbound, hres, hnn, hpfx, hmin⟩ :=
              ih t hlent (idx + 1) (nodes ++ [idx]) res htne h
            refine ⟨k + 1, Nat.succ_pos k, by omega, ?_, ?_, ?_, ?_⟩
            · rw [hres]
              simp [spanRange]
            · intro i hi
              rcases mem_spanRange.1 hi with ⟨hl, hr⟩
              by_cases hieq : i = idx
              · subst hieq; exact h2
              · exact hnn i (mem_spanRange.2 ⟨by omega, by omega⟩)
            · show remaining <+: spanConcat texts (spanRange idx (k + 1))
              rw [show spanRange idx (k + 1) = idx :: spanRange (idx + 1) k from rfl,
                spanConcat_cons, ← ht]
              exact (List.prefix_append_right_inj _).2 hpfx
            · intro j hj
              cases j with
              | zero =>
                rw [show spanRange idx 0 = [] from rfl, spanConcat_nil]
                intro hp
                exact hne (List.prefix_nil.1 hp)
              | succ j =>
                rw [show spanRange idx (j + 1) = idx :: spanRange (idx + 1) j from rfl,
                  spanConcat_cons, ← ht]
                intro hp
                exact hmin j (by omega) ((List.prefix_append_right_inj _).1 hp)
          · rw [if_neg h4] at h
            exact absurd h (by simp)
    · rw [if_neg h1] at h
      rw [if_neg hne] at h
      exact absurd h (by simp)

theorem second_span_nodes_spec {texts : List (List Nat)} {start_index : Nat}
    {pfx res : List Nat} (h : second_span_nodes texts start_index pfx = some res) :
    pfx ≠ [] ∧
    ∃ k, 0 < k ∧ start_index + k ≤ texts.length ∧ res = spanRange start_index k ∧
      (∀ i ∈ res, normalize_for_match (texts.getD i []) ≠ []) ∧
      pfx <+: spanConcat texts res ∧
      ∀ j < k, ¬ pfx <+: spanConcat texts (spanRange start_index j) := by
  rw [second_span_nodes] at h
  by_cases hpfx : pfx = []
  · rw [if_pos hpfx] at h
    exact absurd h (by simp)
  · rw [if_neg hpfx] at h
    obtain ⟨k, hk, hbound, hres, hnn, hp, hmin⟩ :=
      second_span_loop_sound texts pfx.length pfx le_rfl start_index [] res hpfx h
    rw [List.nil_append] at hres
    subst hres
    exact ⟨hpfx, k, hk, hbound, rfl, fun i hi => hnn i hi, hp, hmin⟩

theorem second_span_nodes_ne_nil {texts : List (List Nat)} {start_index : Nat}
    {pfx res : List Nat} (h : second_span_nodes texts start_index pfx = some res) :
    res ≠ [] := by
  obtain ⟨-, k, hk, -, hres, -, -, -⟩ := second_span_nodes_spec h
  subst hres
  cases k with
  | zero => omega
  | succ k => simp [spanRange]

/-- C2: for every token sequence, start index, and non-empty prefix
target, a span returned by the Prefix-Span Matcher is a contiguous run
of token indices starting at the start index whose concatenated
normalized text has the target as a prefix, and the span is minimal —
no strict prefix of the returned span has the target as a prefix of its
concatenated normalized text; consequently no span is returned when no
consecutive run of tokens starting at the start index can reconstruct
the target. -/
theorem second_span_nodes_sound (texts : List (List Nat)) (start_index : Nat)
    (pfx res : List Nat) (hpfx : pfx ≠ [])
    (h : second_span_nodes texts start_index pfx = some res) :
    (∃ k, 0 < k ∧ start_index + k ≤ texts.length ∧ res = spanRange start_index k) ∧
    pfx <+: spanConcat texts res ∧
    ∀ j < res.length, ¬ pfx <+: spanConcat texts (res.take j) := by
  obtain ⟨-, k, hk, hbound, hres, -, hp, hmin⟩ := second_span_nodes_spec h
  refine ⟨⟨k, hk, hbound, hres⟩, hp, ?_⟩
  intro j hj hpfxj
  subst hres
  rw [spanRange_length] at hj
  rw [spanRange_take j k start_index (Nat.le_of_lt hj)] at hpfxj
  exact hmin j hj hpfxj

/-- C2 witness: the soundness theorem applied at a concrete two-token
corpus where the matcher consumes exactly one token. -/
theorem second_span_nodes_sound_witness :
    (([0x05D5] : List Nat) ≠ [] ∧
      second_span_nodes [[0x05D5, 0x05D4]] 0 [0x05D5] = some [0]) ∧
    ((∃ k, 0 < k ∧ 0 + k ≤ ([[0x05D5, 0x05D4]] : List (List Nat)).length ∧
        ([0] : List Nat) = spanRange 0 k) ∧
      [0x05D5] <+: spanConcat [[0x05D5, 0x05D4]] [0] ∧
      ∀ j < ([0] : List Nat).length,
        ¬ [0x05D5] <+: spanConcat [[0x05D5, 0x05D4]] (List.take j [0])) := by
  have hpfx : ([0x05D5] : List Nat) ≠ [] := by decide
  have hn : normalize_for_match (([[0x05D5, 0x05D4]] : List (List Nat)).getD 0 []) =
      [0x05D5, 0x05D4] := by decide
  have heval : second_span_nodes [[0x05D5, 0x05D4]] 0 [0x05D5] = some [0] := by
    rw [second_span_nodes, if_neg hpfx, second_span_loop]
    norm_num [hn, List.isPrefixOf]
    all_goals decide
  exact ⟨⟨hpfx, heval⟩, second_span_nodes_sound [[0x05D5, 0x05D4]] 0 [0x05D5] [0] hpfx heval⟩

theorem wordSpanConcat_nil (words : List WordInfo) : wordSpanConcat words [] = [] := rfl

theorem wordSpanConcat_cons (words : List WordInfo) (i : Nat) (is : List Nat) :
    wordSpanConcat words (i :: is) =
      (words.getD i ⟨[], ""⟩).text ++ wordSpanConcat words is := rfl

theorem pfxLoop_stuck (words : List WordInfo) :
    ∀ (n : Nat) (remaining : List Nat), remaining.length ≤ n →
      ∀ (idx j : Nat) (matched : Bool), remaining ≠ [] →
      wordSpanConcat words (spanRange idx j) <+: remaining →
      (wordSpanConcat words (spanRange idx j)).length < remaining.length →
      (words.getD (idx + j) ⟨[], ""⟩).text = [] →
      (pfxLoop words idx remaining matched).1 ≠ [] := by
  intro n
  induction n with
  | zero =>
    intro remaining hlen idx j matched hne _ _ _
    cases remaining with
    | nil => exact absurd rfl hne
    | cons a as => simp at hlen
  | succ n ih =>
    intro remaining hlen idx j matched hne hcat hlt hempty
    rw [pfxLoop]
    by_cases h1 : idx < words.length ∧ remaining ≠ []
    · rw [if_pos h1]
      show (if (words.getD idx ⟨[], ""⟩).text = [] then (remaining, matched)
        else if remaining.isPrefixOf (words.getD idx ⟨[], ""⟩).text then (([] : List Nat), true)
        else if (words.getD idx ⟨[], ""⟩).text.isPrefixOf remaining then
          pfxLoop words (idx + 1) (remaining.drop (words.getD idx ⟨[], ""⟩).text.length) true
        else (remaining, matched)).1 ≠ []
      by_cases h2 : (words.getD idx ⟨[], ""⟩).text = []
      · rw [if_pos h2]
        exact hne
      · rw [if_neg h2]
        cases j with
        | zero =>
          rw [Nat.add_zero] at hempty
          exact absurd hempty h2
        | succ j =>
          rw [show spanRange idx (j + 1) = idx :: spanRange (idx + 1) j from rfl,
            wordSpanConcat_cons] at hcat hlt
          rw [List.length_append] at hlt
          have hseg : (words.getD idx ⟨[], ""⟩).text <+: remaining :=
            (List.prefix_append _ _).trans hcat
          have hnotc1 : ¬ remaining.isPrefixOf (words.getD idx ⟨[], ""⟩).text = true := by
            intro h3
            have h3l := (List.isPrefixOf_iff_prefix.1 h3).length_le
            omega
          rw [if_neg hnotc1, if_pos (List.isPrefixOf_iff_prefix.2 hseg)]
          obtain ⟨t, ht⟩ := hseg
          have hdrop : remaining.drop (words.getD idx ⟨[], ""⟩).text.length = t := by
            rw [← ht, List.drop_left]
          rw [hdrop]
          have hlenrem : remaining.length = (words.getD idx ⟨[], ""⟩).text.length + t.length := by
            rw [← ht, List.length_append]
          have hrest : wordSpanConcat words (spanRange (idx + 1) j) <+: t := by
            have h5 := hcat
            rw [← ht] at h5
            exact (List.prefix_append_right_inj _).1 h5
          have hlens : (wordSpanConcat words (spanRange (idx + 1) j)).length < t.length := by
            omega
          have htne : t ≠ [] := by
            intro h0
            subst h0
            simp at hlens
          have htlen : t.length ≤ n := by
            have h6 : 0 < (words.getD idx ⟨[], ""⟩).text.length := List.length_pos.mpr h2
            omega
          have hempty2 : (words.getD (idx + 1 + j) ⟨[], ""⟩).text = [] := by
            have h7 : idx + 1 + j = idx + (j + 1) := by omega
            rw [h7]
            exact hempty
          exact ih t htlen (idx + 1) j true htne hrest hlens hempty2
    · rw [if_neg h1]
      exact hne

/-- C8: with a non-empty prefix target an empty normalized token is
never skipped: every token of a successful span has non-empty normalized
text; an empty normalized token at the start position makes the matcher
fail outright whatever the following tokens could reconstruct; and in
the statistics engine, whenever the tokens at the start position spell
out only a proper part of the target (so the target is not yet fully
consumed when the loop examines the token after them) and that next
token has empty text, the prefix flag at the start position is false —
regardless of what the remaining tokens could reconstruct. -/
theorem empty_token_aborts (texts : List (List Nat)) (words : List WordInfo)
    (start j : Nat) (pfx : List Nat) (hpfx : pfx ≠ []) :
    (∀ res, second_span_nodes texts start pfx = some res →
      ∀ i ∈ res, normalize_for_match (texts.getD i []) ≠ []) ∧
    (normalize_for_match (texts.getD start []) = [] →
      second_span_nodes texts start pfx = none) ∧
    (wordSpanConcat words (spanRange start j) <+: pfx →
      (wordSpanConcat words (spanRange start j)).length < pfx.length →
      (words.getD (start + j) ⟨[], ""⟩).text = [] →
      (pfx_flags words pfx).getD start false = false) := by
  refine ⟨?_, ?_, ?_⟩
  · intro res hres i hi
    obtain ⟨-, k, -, -, -, hnn, -, -⟩ := second_span_nodes_spec hres
    exact hnn i hi
  · intro hempty
    rw [second_span_nodes, if_neg hpfx, second_span_loop]
    by_cases h1 : start < texts.length ∧ pfx ≠ []
    · rw [if_pos h1]
      show (if normalize_for_match (texts.getD start []) = [] then none
        else if pfx.isPrefixOf (normalize_for_match (texts.getD start [])) then some ([] ++ [start])
        else if (normalize_for_match (texts.getD start [])).isPrefixOf pfx then
          second_span_loop texts (start + 1)
            (pfx.drop (normalize_for_match (texts.getD start [])).length) ([] ++ [start])
        else none) = none
      rw [if_pos hempty]
    · rw [if_neg h1, if_neg hpfx]
  · intro hcat hlt hempty
    have hstuck : (pfxLoop words start pfx false).1 ≠ [] :=
      pfxLoop_stuck words pfx.length pfx le_rfl start j false hpfx hcat hlt hempty
    rw [pfx_flags, if_neg hpfx]
    by_cases hstart : start < words.length
    · rw [List.getD_eq_getElem?_getD, List.getElem?_map, List.getElem?_range hstart]
      show (some (pfxMatchAt words pfx start)).getD false = false
      rw [Option.getD_some, pfxMatchAt]
      have hdec : decide ((pfxLoop words start pfx false).1 = []) = false :=
        decide_eq_false hstuck
      simp only [hdec, Bool.false_and]
    · rw [List.getD_eq_default]
      rw [List.length_map, List.length_range]
      omega

/-- C8 witness: the abort behavior at concrete corpora — the matcher at
a corpus whose first scanned token is empty, and the statistics engine
at a scope whose first word carries half the target and whose second,
empty word is hit mid-run before the target is consumed, while the third
word could have completed it. -/
theorem empty_token_aborts_witness :
    (([0x05D5, 0x05D4] : List Nat) ≠ []) ∧
    second_span_nodes [[], [0x05D5]] 0 [0x05D5, 0x05D4] = none ∧
    (pfx_flags [⟨[0x05D5], "Genesis"⟩, ⟨[], "Genesis"⟩, ⟨[0x05D4], "Genesis"⟩]
      [0x05D5, 0x05D4]).getD 0 false = false := by
  have hpfx : ([0x05D5, 0x05D4] : List Nat) ≠ [] := by decide
  have h := empty_token_aborts [[], [0x05D5]]
    [⟨[0x05D5], "Genesis"⟩, ⟨[], "Genesis"⟩, ⟨[0x05D4], "Genesis"⟩] 0 1 [0x05D5, 0x05D4] hpfx
  exact ⟨hpfx, h.2.1 (by decide), h.2.2 ⟨[0x05D4], rfl⟩ (by decide) (by decide)⟩

theorem filterMap_eq_map_filter {α β : Type} (f : α → Option β) (p : α → Bool)
    (g : α → β) (l : List α) (h : ∀ a ∈ l, f a = if p a then some (g a) else none) :
    l.filterMap f = (l.filter p).map g := by
  induction l with
  | nil => rfl
  | cons a as ih =>
    rw [List.filterMap_cons, List.filter_cons, h a (List.mem_cons_self a as)]
    by_cases hp : p a
    · rw [if_pos hp, if_pos hp, List.map_cons,
        ih (fun b hb => h b (List.mem_cons_of_mem a hb))]
    · rw [if_neg hp, if_neg hp, ih (fun b hb => h b (List.mem_cons_of_mem a hb))]

/-- C4: the Corpus Scanner examines exactly the indices 0..N-2, emitting
one Match for exactly each index whose normalized token text ends with
the suffix target (every token qualifying when the suffix target is
empty) and where the Prefix-Span Matcher succeeds at the next index;
each Match carries the single-token first span and the matcher's
returned span, the Matches appear in strictly increasing order of first
index, and the last token never begins a match. -/
theorem collect_matches_spec (texts : List (List Nat))
    (suffix_target prefix_target : List Nat) :
    collect_matches texts suffix_target prefix_target =
      ((List.range (texts.length - 1)).filter (fun idx =>
          (decide (suffix_target = []) ||
            suffix_target.isSuffixOf (normalize_for_match (texts.getD idx []))) &&
          (second_span_nodes texts (idx + 1) prefix_target).isSome)).map
        (fun idx =>
          { first := [idx],
            second := (second_span_nodes texts (idx + 1) prefix_target).getD [] }) ∧
    List.Pairwise (fun m1 m2 => m1.first.headD 0 < m2.first.headD 0)
      (collect_matches texts suffix_target prefix_target) ∧
    ∀ m ∈ collect_matches texts suffix_target prefix_target,
      m.first.headD 0 + 1 < texts.length := by
  have hmain : collect_matches texts suffix_target prefix_target =
      ((List.range (texts.length - 1)).filter (fun idx =>
          (decide (suffix_target = []) ||
            suffix_target.isSuffixOf (normalize_for_match (texts.getD idx []))) &&
          (second_span_nodes texts (idx + 1) prefix_target).isSome)).map
        (fun idx =>
          { first := [idx],
            second := (second_span_nodes texts (idx + 1) prefix_target).getD [] }) := by
    apply filterMap_eq_map_filter
    intro idx _
    by_cases hsfx : suffix_target ≠ [] ∧
        ¬ suffix_target.isSuffixOf (normalize_for_match (texts.getD idx []))
    · rw [if_pos hsfx]
      have hp : (decide (suffix_target = []) ||
          suffix_target.isSuffixOf (normalize_for_match (texts.getD idx []))) = false := by
        rcases hsfx with ⟨h1, h2⟩
        rw [decide_eq_false h1, Bool.false_or]
        rwa [Bool.not_eq_true] at h2
      rw [hp]
      rfl
    · rw [if_neg hsfx]
      have hleft : (decide (suffix_target = []) ||
          suffix_target.isSuffixOf (normalize_for_match (texts.getD idx []))) = true := by
        rcases Decidable.not_and_iff_or_not.1 hsfx with h1 | h2
        · rw [decide_eq_true (Decidable.not_not.1 h1), Bool.true_or]
        · rw [Decidable.not_not.1 h2, Bool.or_true]
      cases hspan : second_span_nodes texts (idx + 1) prefix_target with
      | none => rw [hleft]; rfl
      | some span_nodes =>
        have hne := second_span_nodes_ne_nil hspan
        simp [hleft, hne]
        have h := hleft
        rw [Bool.or_eq_true, decide_eq_true_eq, List.isSuffixOf_iff_suffix] at h
        simpa using h
  refine ⟨hmain, ?_, ?_⟩
  · rw [hmain]
    rw [List.pairwise_map]
    apply List.Pairwise.imp ?_ (List.Pairwise.filter _ (List.pairwise_lt_range _))
    intro a b hab
    simpa using hab
  · intro m hm
    rw [hmain] at hm
    rcases List.mem_map.1 hm with ⟨idx, hidx, rfl⟩
    have := List.mem_range.1 (List.mem_of_mem_filter hidx)
    simp only [List.headD_cons]
    omega

/-- C6: the significance computation's case analysis — non-positive
expected mean gives p = 0 for positive observed and p = 1 otherwise,
positive mean with non-positive observed gives p = 1, and in the
remaining case the cumulative Poisson-tail sum is capped so the result
never exceeds 1. -/
theorem poisson_tail_cases (observed : Int) (lam : ℝ) :
    (lam ≤ 0 → 0 < observed → poisson_tail observed lam = 0) ∧
    (lam ≤ 0 → observed ≤ 0 → poisson_tail observed lam = 1) ∧
    (0 < lam → observed ≤ 0 → poisson_tail observed lam = 1) ∧
    (0 < lam → 0 < observed → poisson_tail observed lam ≤ 1) := by
  refine ⟨?_, ?_, ?_, ?_⟩
  · intro h1 h2
    unfold poisson_tail
    rw [if_pos h1, if_pos h2]
  · intro h1 h2
    unfold poisson_tail
    rw [if_pos h1, if_neg (by omega : ¬ 0 < observed)]
  · intro h1 h2
    unfold poisson_tail
    rw [if_neg (not_le.mpr h1), if_pos h2]
  · intro h1 h2
    unfold poisson_tail
    rw [if_neg (not_le.mpr h1), if_neg (by omega : ¬ observed ≤ 0)]
    exact min_le_left _ _

/-- C6 witness: the four cases of the Poisson-tail theorem at concrete
observed counts and means. -/
theorem poisson_tail_cases_witness :
    poisson_tail 1 0 = 0 ∧ poisson_tail 0 0 = 1 ∧
    poisson_tail 0 1 = 1 ∧ poisson_tail 2 1 ≤ 1 :=
  ⟨(poisson_tail_cases 1 0).1 le_rfl one_pos,
   (poisson_tail_cases 0 0).2.1 le_rfl le_rfl,
   (poisson_tail_cases 0 1).2.2.1 one_pos le_rfl,
   (poisson_tail_cases 2 1).2.2.2 one_pos (by omega)⟩

theorem length_filter_range_eq_card (n : Nat) (p : Nat → Bool) :
    ((List.range n).filter p).length =
      ((Finset.range n).filter (fun i => p i = true)).card := by
  induction n with
  | zero => rfl
  | succ n ih =>
    rw [List.range_succ, List.filter_append, List.length_append, Finset.range_succ,
      Finset.filter_insert]
    by_cases hp : p n = true
    · rw [if_pos hp, Finset.card_insert_of_not_mem (fun hmem =>
        absurd (Finset.mem_filter.1 hmem).1 Finset.not_mem_range_self)]
      simp [hp, ih]
    · rw [if_neg hp]
      simp [hp, ih]

/-- C10: when both an explicit suffix target and an explicit prefix
target are supplied and both normalize to non-empty strings,
`resolve_targets` returns that normalized pair immediately, raising no
validation error even when the split index is out of range or the word
is empty or missing. -/
theorem resolve_targets_explicit (word : Option (List Nat)) (split_index : Option Int)
    (s p : List Nat) (hs : normalize_for_match s ≠ []) (hp : normalize_for_match p ≠ []) :
    resolve_targets word (some s) (some p) split_index =
      Except.ok (normalize_for_match s, normalize_for_match p) := by
  have hsne : s ≠ [] := fun h => hs (by rw [h]; rfl)
  have hpne : p ≠ [] := fun h => hp (by rw [h]; rfl)
  unfold resolve_targets
  simp only []
  rw [if_pos hsne, if_pos hpne, if_pos ⟨hs, hp⟩]

/-- C10 witness: explicit targets bypass all validation — the word is
missing and the split index 99 is far out of range, yet the normalized
pair is returned. -/
theorem resolve_targets_explicit_witness :
    normalize_for_match [0x05D0] ≠ [] ∧ normalize_for_match [0x05D1] ≠ [] ∧
    resolve_targets none (some [0x05D0]) (some [0x05D1]) (some 99) =
      Except.ok (normalize_for_match [0x05D0], normalize_for_match [0x05D1]) := by
  have hs : normalize_for_match [0x05D0] ≠ [] := by decide
  have hp : normalize_for_match [0x05D1] ≠ [] := by decide
  exact ⟨hs, hp, resolve_targets_explicit none (some 99) [0x05D0] [0x05D1] hs hp⟩

/-- C3: over a non-empty word scope of size N, `compute_pattern_stats`
returns expected = (N-1)·(suffixCount/N)·(prefixCount/N) with the counts
taken over the flag vectors, observed = the exact number of indices i in
0..N-2 with the suffix flag at i and the prefix flag at i+1 both true,
and ratio = observed/expected when expected is positive, else the
infinity sentinel. -/
theorem compute_pattern_stats_formula (scope : String) (words : List WordInfo)
    (suffix_target prefix_target : List Nat) (h : words ≠ []) :
    (compute_pattern_stats scope words suffix_target prefix_target).expected_adjacent =
      ((words.length : ℚ) - 1) *
        (((sfx_flags words suffix_target).count true : ℚ) / (words.length : ℚ)) *
        (((pfx_flags words prefix_target).count true : ℚ) / (words.length : ℚ)) ∧
    (compute_pattern_stats scope words suffix_target prefix_target).observed_adjacent =
      ((Finset.range (words.length - 1)).filter (fun i =>
        (sfx_flags words suffix_target).getD i false = true ∧
        (pfx_flags words prefix_target).getD (i + 1) false = true)).card ∧
    (0 < (compute_pattern_stats scope words suffix_target prefix_target).expected_adjacent →
      (compute_pattern_stats scope words suffix_target prefix_target).ratio =
        some
          (((compute_pattern_stats scope words suffix_target
              prefix_target).observed_adjacent : ℚ) /
            (compute_pattern_stats scope words suffix_target prefix_target).expected_adjacent)) ∧
    ((compute_pattern_stats scope words suffix_target prefix_target).expected_adjacent ≤ 0 →
      (compute_pattern_stats scope words suffix_target prefix_target).ratio = none) := by
  have hlen : ¬ words.length = 0 := fun h0 => h (List.eq_nil_of_length_eq_zero h0)
  have hexp : (compute_pattern_stats scope words suffix_target prefix_target).expected_adjacent =
      ((words.length : ℚ) - 1) *
        (((sfx_flags words suffix_target).count true : ℚ) / (words.length : ℚ)) *
        (((pfx_flags words prefix_target).count true : ℚ) / (words.length : ℚ)) := by
    unfold compute_pattern_stats
    rw [if_neg hlen]
  have hobs : (compute_pattern_stats scope words suffix_target prefix_target).observed_adjacent =
      ((List.range (words.length - 1)).filter (fun idx =>
        (sfx_flags words suffix_target).getD idx false &&
        (pfx_flags words prefix_target).getD (idx + 1) false)).length := by
    unfold compute_pattern_stats
    rw [if_neg hlen]
  have hratio : (compute_pattern_stats scope words suffix_target prefix_target).ratio =
      if (compute_pattern_stats scope words suffix_target prefix_target).expected_adjacent ≠ 0
      then some
        (((compute_pattern_stats scope words suffix_target
            prefix_target).observed_adjacent : ℚ) /
          (compute_pattern_stats scope words suffix_target prefix_target).expected_adjacent)
      else none := by
    unfold compute_pattern_stats
    rw [if_neg hlen]
  have hnonneg : 0 ≤ (compute_pattern_stats scope words suffix_target
      prefix_target).expected_adjacent := by
    rw [hexp]
    have h1 : (1 : ℚ) ≤ (words.length : ℚ) := by
      exact_mod_cast Nat.one_le_iff_ne_zero.2 hlen
    have h2 : (0 : ℚ) ≤ ((sfx_flags words suffix_target).count true : ℚ) / (words.length : ℚ) :=
      div_nonneg (Nat.cast_nonneg _) (Nat.cast_nonneg _)
    have h3 : (0 : ℚ) ≤ ((pfx_flags words prefix_target).count true : ℚ) / (words.length : ℚ) :=
      div_nonneg (Nat.cast_nonneg _) (Nat.cast_nonneg _)
    have h4 : (0 : ℚ) ≤ (words.length : ℚ) - 1 := by linarith
    exact mul_nonneg (mul_nonneg h4 h2) h3
  refine ⟨hexp, ?_, ?_, ?_⟩
  · rw [hobs, length_filter_range_eq_card]
    congr 1
    apply Finset.filter_congr
    intro i _
    simp [Bool.and_eq_true]
  · intro hpos
    rw [hratio, if_pos (ne_of_gt hpos)]
  · intro hle
    have : (compute_pattern_stats scope words suffix_target prefix_target).expected_adjacent = 0 :=
      le_antisymm hle hnonneg
    rw [hratio, if_neg (by rw [this]; exact fun hne => hne rfl)]

/-- C3 witness: the formula theorem applied at a concrete two-word
scope. -/
theorem compute_pattern_stats_formula_witness :
    ([⟨[0x05D4], "Genesis"⟩, ⟨[0x05D4], "Genesis"⟩] : List WordInfo) ≠ [] ∧
    (compute_pattern_stats "BHSA" [⟨[0x05D4], "Genesis"⟩, ⟨[0x05D4], "Genesis"⟩]
        [] []).expected_adjacent =
      ((2 : ℚ) - 1) *
        (((sfx_flags [⟨[0x05D4], "Genesis"⟩, ⟨[0x05D4], "Genesis"⟩] []).count true : ℚ) / 2) *
        (((pfx_flags [⟨[0x05D4], "Genesis"⟩, ⟨[0x05D4], "Genesis"⟩] []).count true : ℚ) / 2) := by
  have hne : ([⟨[0x05D4], "Genesis"⟩, ⟨[0x05D4], "Genesis"⟩] : List WordInfo) ≠ [] := by
    simp
  have h := (compute_pattern_stats_formula "BHSA"
    [⟨[0x05D4], "Genesis"⟩, ⟨[0x05D4], "Genesis"⟩] [] [] hne).1
  exact ⟨hne, h⟩
